import Mathlib

/-!
# thekogans_make_core: verification of the Toolchain resolver and Generator registry

A shallow embedding of the generation core of `thekogans_make_core`:

* the version-ordering and toolchain-resolution operations declared in
  `src/include/thekogans/make/core/Toolchain.h` (`Toolchain::Find`,
  `Toolchain::IsInstalled`, `Toolchain::GetVersions`,
  `Toolchain::GetLatestVersion`, ...); the repository ships only the
  declarations, so the operation bodies are modelled from the specification
  (directory convention keyed by organization/project/version, dot-separated
  numeric version ordering with missing trailing components treated as zero);
* the generator registry (`Generator::Map`, a `std::map<std::string, Factory>`,
  `Generator::Get`, `Generator::MapInitializer`, `Generator::GetGenerators`)
  and the dynamic-discovery macros `THEKOGANS_MAKE_CORE_DECLARE_GENERATOR` /
  `THEKOGANS_MAKE_CORE_IMPLEMENT_GENERATOR` from `Generator.h`;
* the abstract `Generator::Generate` / `Generator::Delete` contract
  (both pure virtual in the source), modelled from the specification as a
  state machine over a per-(project_root, config, type) project state.
-/

namespace ThekogansMakeCore

/-- The error taxonomy of the core (spec section 7): each failure is a
distinct, inspectable kind. -/
inductive CoreError where
  | generatorTypeNotFound (type : String)
  | malformedProjectDescription
  | missingDependency (organization project : String)
  | circularDependency
  | toolchainNotFound (organization project : String)
  | malformedVersion (version : String)
  | toolchainStoreUnreadable
deriving Repr, DecidableEq

/-! ## Version ordering

Versions are dot-separated sequences of numeric components; comparison is
component-wise numeric, with missing trailing components treated as zero.
`Toolchain.cpp` is not in the repository sources, so the comparison is
modelled from the spec (section 4.2, "Version ordering"). -/

/-- Split a character list on the `.` separator (the character-level
counterpart of `String.splitOn "."`): an empty input yields one empty
component, and every separator starts a new component. -/
def splitOnDot : List Char → List (List Char)
  | [] => [[]]
  | c :: cs =>
    if c = '.' then [] :: splitOnDot cs
    else
      match splitOnDot cs with
      | [] => [[c]]
      | d :: ds => (c :: d) :: ds

/-- Parse one dot-separated component: it must be a nonempty all-digit
string (the semantics of `String.toNat?`), otherwise the version is
malformed. -/
def parseComponent (cs : List Char) : Option Nat :=
  if cs ≠ [] ∧ cs.all Char.isDigit then
    some (cs.foldl (fun n c => n * 10 + (c.toNat - Char.toNat '0')) 0)
  else
    none

/-- Modelled from the spec: split a version string on `.` and parse every
component numerically; any non-numeric component makes the whole version
string invalid (`none`). -/
def parseVersion (s : String) : Option (List Nat) :=
  (splitOnDot s.data).mapM parseComponent

/-- Compare the empty (exhausted) version against `b`: the missing components
are treated as zero, so the result is `eq` when `b` is all zeros and `lt`
otherwise. -/
def cmpNil : List Nat → Ordering
  | [] => Ordering.eq
  | b :: bs => if b = 0 then cmpNil bs else Ordering.lt

/-- Component-wise numeric comparison of parsed versions; a missing trailing
component is treated as zero, so a leftover suffix of zeros compares equal
to an exhausted list. -/
def cmpComponents : List Nat → List Nat → Ordering
  | [], b => cmpNil b
  | a :: as, [] => if a = 0 then cmpComponents as [] else Ordering.gt
  | a :: as, b :: bs =>
    if a < b then Ordering.lt
    else if b < a then Ordering.gt
    else cmpComponents as bs

/-- Compare two version strings; `none` when either is malformed (the
resolver fails such a lookup with a malformed-version error instead of
sorting it arbitrarily). -/
def versionCompare (a b : String) : Option Ordering :=
  match parseVersion a, parseVersion b with
  | some va, some vb => some (cmpComponents va vb)
  | _, _ => none

/-- Boolean `a ≤ b` on version strings, used to sort installed versions;
malformed strings are never compared by the resolver (it fails first). -/
def versionLe (a b : String) : Bool :=
  match versionCompare a b with
  | some Ordering.gt => false
  | some _ => true
  | none => false

/-! ## Sorting installed versions

`Toolchain::GetVersions` returns the installed versions "sorted ascending by
the version ordering"; the sort is modelled as an insertion sort by
`versionLe`. -/

/-- Insert a version into an already ascending list, keeping it ascending. -/
def insertVersion (v : String) : List String → List String
  | [] => [v]
  | w :: ws => if versionLe v w then v :: w :: ws else w :: insertVersion v ws

/-- Insertion sort of version strings, ascending by `versionLe`. -/
def sortVersions : List String → List String
  | [] => []
  | v :: vs => insertVersion v (sortVersions vs)

/-- `vs` is ascending by the version ordering. -/
def VersionSorted (vs : List String) : Prop :=
  vs.Pairwise (fun a b => versionLe a b = true)

/-- All members of `l` are well-formed version strings. -/
def AllValid (l : List String) : Prop :=
  ∀ x ∈ l, (parseVersion x).isSome

/-! ## The toolchain store

The resolver answers every query from the installed-toolchain directory
convention: one directory per (organization, project, version) triple.
Distinct directory entries are distinct triples, which the structure
carries as an invariant. `Toolchain.cpp` is not among the repository
sources, so the operation bodies below are modelled from the spec
(sections 4.3 and 8) against the declarations in `Toolchain.h`. -/

/-- The installed-toolchain directory hierarchy, flattened to its
(organization, project, version) directory triples. A filesystem cannot
hold two identically named directories, hence `nodup`. -/
structure ToolchainStore where
  entries : List (String × String × String)
  nodup : entries.Nodup

/-- The version directory names installed under `organization`/`project`. -/
def ToolchainStore.installedVersions (store : ToolchainStore)
    (organization project : String) : List String :=
  (store.entries.filter
    (fun e => e.1 == organization && e.2.1 == project)).map (fun e => e.2.2)

namespace Toolchain

/-- Modelled from the spec: `Toolchain::GetVersions` (declared in
`Toolchain.h`, body not in the repository sources) lists all installed
versions of (organization, project) sorted ascending by the version
ordering; a malformed version directory fails the lookup, and an entirely
absent organization/project yields the empty sequence, not an error. -/
def GetVersions (store : ToolchainStore) (organization project : String) :
    Except CoreError (List String) :=
  match (store.installedVersions organization project).find?
      (fun v => (parseVersion v).isNone) with
  | some v => Except.error (CoreError.malformedVersion v)
  | none =>
    Except.ok (sortVersions (store.installedVersions organization project))

/-- Modelled from the spec: `Toolchain::IsInstalled` is the exact existence
check for one specific (organization, project, version) directory. -/
def IsInstalled (store : ToolchainStore)
    (organization project version : String) : Bool :=
  store.entries.contains (organization, project, version)

/-- Two distinct version directory entries of the list normalize to equal
versions (e.g. `1.2` and `1.2.0`): the corruption condition of spec 4.2. -/
def hasVersionTie : List String → Bool
  | [] => false
  | v :: vs =>
    vs.any (fun w => versionCompare v w = some Ordering.eq) || hasVersionTie vs

/-- Modelled from the spec: `Toolchain::GetLatestVersion` is the maximum
(last) element of `GetVersions`, and fails with a toolchain-not-found
error when no version is installed. Per spec 4.2, two distinct directory
entries normalizing to equal versions are a corruption condition and must
fail loudly rather than pick one; the store can then not be trusted to
answer, so the failure surfaces as the store-unreadable error kind. -/
def GetLatestVersion (store : ToolchainStore) (organization project : String) :
    Except CoreError String :=
  match GetVersions store organization project with
  | Except.error e => Except.error e
  | Except.ok versions =>
    if hasVersionTie versions then
      Except.error CoreError.toolchainStoreUnreadable
    else
      match versions with
      | [] =>
        Except.error (CoreError.toolchainNotFound organization project)
      | v :: vs => Except.ok ((v :: vs).getLast (by simp))

end Toolchain

instance {e a : Type} [DecidableEq e] [DecidableEq a] : DecidableEq (Except e a) :=
  fun x y =>
    match x, y with
    | Except.error e1, Except.error e2 =>
      if h : e1 = e2 then Decidable.isTrue (by rw [h])
      else Decidable.isFalse (by intro hc; cases hc; exact h rfl)
    | Except.error _, Except.ok _ => Decidable.isFalse (by intro hc; cases hc)
    | Except.ok _, Except.error _ => Decidable.isFalse (by intro hc; cases hc)
    | Except.ok a1, Except.ok a2 =>
      if h : a1 = a2 then Decidable.isTrue (by rw [h])
      else Decidable.isFalse (by intro hc; cases hc; exact h rfl)

/-- Fixture: an installed-toolchain directory with organization `acme`,
project `zlib`, versions `1.3.0` and `1.2.0` (in arbitrary directory
enumeration order). -/
def sampleStore : ToolchainStore :=
  ⟨[("acme", "zlib", "1.3.0"), ("acme", "zlib", "1.2.0")], by decide⟩

/-- Fixture: a corrupt installed-toolchain directory holding two distinct
version directories that normalize to equal versions. -/
def tieStore : ToolchainStore :=
  ⟨[("acme", "zlib", "1.2"), ("acme", "zlib", "1.2.0")], by decide⟩

/-! ## The generator registry

`Generator.h` declares `typedef SharedPtr (*Factory) (bool rootProject)`
and `typedef std::map<std::string, Factory> Map`; the registry map is
populated by `MapInitializer` at static-initialization time and queried by
`Generator::Get` / `Generator::GetGenerators` (bodies not in the
repository sources, modelled from the spec and the `std::map` container
semantics the typedef fixes: keys strictly ascending lexicographically,
inserting an existing key keeps the present entry). -/

/-- A generator instance: the class name reported by `GetName` and the
`rootProject` flag fixed at construction (`Generator.h`). -/
structure GeneratorInst where
  name : String
  rootProject : Bool
deriving Repr, DecidableEq

/-- `Generator::GetName` returns the class name of the generator. -/
def GeneratorInst.GetName (g : GeneratorInst) : String := g.name

/-- `Generator.h`: `typedef SharedPtr (*Factory) (bool rootProject)`. -/
abbrev Generator.Factory : Type := Bool → GeneratorInst

/-- `Generator.h`: `typedef std::map<std::string, Factory> Map`, modelled
as an association list kept strictly ascending by key (the `std::map`
representation invariant). -/
abbrev Generator.Map : Type := List (String × Generator.Factory)

/-- Ordered insertion into the `std::map`: an already-present key keeps
its existing entry (`std::map::insert` semantics). -/
def Generator.mapInsert (type : String) (factory : Generator.Factory) :
    Generator.Map → Generator.Map
  | [] => [(type, factory)]
  | (t, f) :: rest =>
    if type < t then (type, factory) :: (t, f) :: rest
    else if type = t then (t, f) :: rest
    else (t, f) :: Generator.mapInsert type factory rest

/-- The registry map produced by running one `MapInitializer` registration
per list element, in list order, starting from the empty map. -/
def Generator.buildMap (regs : List (String × Generator.Factory)) :
    Generator.Map :=
  regs.foldl (fun m r => Generator.mapInsert r.1 r.2 m) []

/-- `std::map::find` on the modelled registry. -/
def Generator.find : Generator.Map → String → Option Generator.Factory
  | [], _ => none
  | (t, f) :: rest, type =>
    if type = t then some f else Generator.find rest type

/-- Modelled from the spec: `Generator::Get` (declared in `Generator.h`,
body not in the repository sources) looks up the factory registered for
`type` and creates an instance with it; an unregistered type name fails
with a generator-type-not-found error. -/
def Generator.Get (m : Generator.Map) (type : String) (rootProject : Bool) :
    Except CoreError GeneratorInst :=
  match Generator.find m type with
  | some factory => Except.ok (factory rootProject)
  | none => Except.error (CoreError.generatorTypeNotFound type)

/-- Modelled from the spec: `Generator::GetGenerators` (declared in
`Generator.h`, body not in the repository sources) lists the registered
type names, in the registry map's iteration order. -/
def Generator.GetGenerators (m : Generator.Map) : List String :=
  m.map Prod.fst

/-- The registration entry produced for a concrete generator class by
`THEKOGANS_MAKE_CORE_DECLARE_GENERATOR(type)` together with
`THEKOGANS_MAKE_CORE_IMPLEMENT_GENERATOR(type)`: the factory builds an
instance of class `type` carrying the requested `rootProject` flag, and
the entry is registered under the stringized class name `#type`. -/
def declareGenerator (type : String) : String × Generator.Factory :=
  (type, fun rootProject => { name := type, rootProject := rootProject })

/-! ## The Generator contract

`Generator::Generate` and `Generator::Delete` are pure virtual in
`Generator.h`; the contract every concrete generator must honor is
modelled from the spec (section 4.2) as a state machine over the
observable per-(project_root, config, type) state. -/

/-- The observable state of one (project_root, config, type) triple: does
the project root hold the expected `thekogans_make.xml`, its modification
time, an unresolvable declared dependency toolchain (if any), and the
generated output with the project-description timestamp it was built
from (if present). -/
structure ProjectState where
  hasProjectFile : Bool
  projectModTime : Nat
  missingDependency : Option (String × String)
  output : Option Nat
deriving Repr, DecidableEq

/-- Writing the build system stamps the output with the project
description's current modification time. -/
def Generator.writeOutput (s : ProjectState) : ProjectState :=
  { s with output := some s.projectModTime }

/-- The precondition check `Generate` performs before writing anything:
the project root must hold the expected project file, and when dependency
generation is requested every declared dependency toolchain must resolve.
Returns the error to fail with, if any. -/
def Generator.generateCheck (s : ProjectState) (generateDependencies : Bool) :
    Option CoreError :=
  if s.hasProjectFile = false then
    some CoreError.malformedProjectDescription
  else if generateDependencies then
    match s.missingDependency with
    | some (organization, project) =>
      some (CoreError.missingDependency organization project)
    | none => none
  else none

/-- The generator's own staleness check: output exists and is no older
than the project description. -/
def Generator.upToDate (s : ProjectState) : Bool :=
  match s.output with
  | none => false
  | some t => s.projectModTime ≤ t

/-- Modelled from the spec: the `Generator::Generate` contract
(`Generator.h` declares it pure virtual). It fails with a
malformed-project-description error when the project root lacks the
expected project file, fails with a missing-dependency error when
dependency generation is requested and a declared toolchain cannot be
resolved, regenerates unconditionally under `force`, and otherwise
(re)writes the output exactly when the staleness check says it is out of
date — returning `true` when output was written and `false` when it was
already up to date. The returned state is the on-disk state after the
call: errors leave it unchanged (no partial commit). -/
def Generator.Generate (s : ProjectState) (generateDependencies force : Bool) :
    Except CoreError Bool × ProjectState :=
  match Generator.generateCheck s generateDependencies with
  | some e => (Except.error e, s)
  | none =>
    if force || !Generator.upToDate s then
      (Except.ok true, Generator.writeOutput s)
    else
      (Except.ok false, s)

/-- Modelled from the spec: the `Generator::Delete` contract
(`Generator.h` declares it pure virtual) removes previously generated
output for the given config/type; deleting output that does not exist is
not an error. -/
def Generator.Delete (s : ProjectState) (deleteDependencies : Bool) :
    Except CoreError Unit × ProjectState :=
  (Except.ok (), { s with output := none })


theorem cmpComponents_refl (a : List Nat) : cmpComponents a a = Ordering.eq := by
  induction a with
  | nil => rfl
  | cons x as ih => simp [cmpComponents, ih]

theorem cmpComponents_nil_swap (b : List Nat) :
    cmpComponents b [] = (cmpComponents [] b).swap := by
  induction b with
  | nil => rfl
  | cons y bs ih =>
    by_cases hy : y = 0 <;> simp [cmpComponents, cmpNil, hy, ih, Ordering.swap]

theorem cmpComponents_swap (a : List Nat) :
    ∀ b, cmpComponents b a = (cmpComponents a b).swap := by
  induction a with
  | nil =>
    intro b
    exact cmpComponents_nil_swap b
  | cons x as ih =>
    intro b
    cases b with
    | nil =>
      rw [cmpComponents_nil_swap, Ordering.swap_swap]
    | cons y bs =>
      by_cases hxy : x < y
      · have hyx : ¬ y < x := by omega
        simp [cmpComponents, hxy, hyx, Ordering.swap]
      · by_cases hyx : y < x
        · simp [cmpComponents, hxy, hyx, Ordering.swap]
        · simp [cmpComponents, hxy, hyx, ih bs]

theorem cmpNil_ne_gt (b : List Nat) : cmpNil b ≠ Ordering.gt := by
  induction b with
  | nil => simp [cmpNil]
  | cons y bs ih => by_cases hy : y = 0 <;> simp [cmpNil, hy, ih]

theorem cmpComponents_le_trans (a : List Nat) :
    ∀ b c, cmpComponents a b ≠ Ordering.gt → cmpComponents b c ≠ Ordering.gt →
      cmpComponents a c ≠ Ordering.gt := by
  induction a with
  | nil =>
    intro b c _ _
    simpa [cmpComponents] using cmpNil_ne_gt c
  | cons x as ih =>
    intro b c h1 h2
    cases b with
    | nil =>
      by_cases hx : x = 0
      · subst hx
        simp only [cmpComponents, if_pos rfl] at h1
        cases c with
        | nil => simpa [cmpComponents] using h1
        | cons z cs =>
          by_cases hz : z = 0
          · subst hz
            simp only [cmpComponents, Nat.lt_irrefl, if_false]
            exact ih [] cs h1 (by simpa [cmpComponents] using cmpNil_ne_gt cs)
          · have hz' : 0 < z := Nat.pos_of_ne_zero hz
            simp [cmpComponents, hz']
      · simp [cmpComponents, hx] at h1
    | cons y bs =>
      cases c with
      | nil =>
        by_cases hy : y = 0
        · subst hy
          simp only [cmpComponents, if_pos rfl] at h2
          by_cases hx : x = 0
          · subst hx
            simp only [cmpComponents, Nat.lt_irrefl, if_false] at h1
            simp only [cmpComponents, if_pos rfl]
            exact ih bs [] h1 h2
          · have hx' : 0 < x := Nat.pos_of_ne_zero hx
            simp [cmpComponents, Nat.not_lt_zero, hx'] at h1
        · simp [cmpComponents, hy] at h2
      | cons z cs =>
        by_cases hxy : x < y
        · by_cases hyz : y < z
          · simp [cmpComponents, show x < z by omega]
          · by_cases hzy : z < y
            · simp [cmpComponents, hzy, show ¬ y < z by omega] at h2
            · have : y = z := by omega
              subst this
              simp [cmpComponents, hxy]
        · by_cases hyx : y < x
          · simp [cmpComponents, hyx, hxy] at h1
          · have hxy' : x = y := by omega
            subst hxy'
            simp only [cmpComponents, Nat.lt_irrefl, if_false] at h1
            by_cases hyz : x < z
            · simp [cmpComponents, hyz]
            · by_cases hzy : z < x
              · simp [cmpComponents, hzy, show ¬ x < z by omega] at h2
              · have : x = z := by omega
                subst this
                simp only [cmpComponents, Nat.lt_irrefl, if_false] at h2 ⊢
                exact ih bs cs h1 h2

theorem cmpComponents_le_total (a b : List Nat) :
    cmpComponents a b ≠ Ordering.gt ∨ cmpComponents b a ≠ Ordering.gt := by
  by_cases h : cmpComponents a b = Ordering.gt
  · right
    rw [cmpComponents_swap, h]
    simp [Ordering.swap]
  · exact Or.inl h

theorem versionLe_iff {a b : String} {va vb : List Nat}
    (ha : parseVersion a = some va) (hb : parseVersion b = some vb) :
    versionLe a b = true ↔ cmpComponents va vb ≠ Ordering.gt := by
  unfold versionLe versionCompare
  rw [ha, hb]
  cases hcv : cmpComponents va vb <;> simp [hcv]

theorem versionLe_refl {a : String} {va : List Nat}
    (ha : parseVersion a = some va) : versionLe a a = true := by
  rw [versionLe_iff ha ha, cmpComponents_refl]
  simp

theorem versionLe_trans {a b c : String} {va vb vc : List Nat}
    (ha : parseVersion a = some va) (hb : parseVersion b = some vb)
    (hc : parseVersion c = some vc)
    (h1 : versionLe a b = true) (h2 : versionLe b c = true) :
    versionLe a c = true := by
  rw [versionLe_iff ha hb] at h1
  rw [versionLe_iff hb hc] at h2
  rw [versionLe_iff ha hc]
  exact cmpComponents_le_trans va vb vc h1 h2

theorem versionLe_total {a b : String} {va vb : List Nat}
    (ha : parseVersion a = some va) (hb : parseVersion b = some vb) :
    versionLe a b = true ∨ versionLe b a = true := by
  rw [versionLe_iff ha hb, versionLe_iff hb ha]
  exact cmpComponents_le_total va vb

theorem mem_insertVersion {x v : String} {l : List String} :
    x ∈ insertVersion v l ↔ x = v ∨ x ∈ l := by
  induction l with
  | nil => simp [insertVersion]
  | cons w ws ih =>
    by_cases h : versionLe v w = true
    · simp [insertVersion, h]
    · simp only [insertVersion, if_neg h, List.mem_cons, ih]
      tauto

theorem mem_sortVersions {x : String} {l : List String} :
    x ∈ sortVersions l ↔ x ∈ l := by
  induction l with
  | nil => simp [sortVersions]
  | cons v vs ih => simp [sortVersions, mem_insertVersion, ih]

theorem nodup_insertVersion {v : String} {l : List String}
    (hn : l.Nodup) (hv : v ∉ l) : (insertVersion v l).Nodup := by
  induction l with
  | nil => simp [insertVersion]
  | cons w ws ih =>
    rcases List.nodup_cons.mp hn with ⟨hw, hws⟩
    by_cases h : versionLe v w = true
    · simp only [insertVersion, if_pos h]
      refine List.nodup_cons.mpr ⟨hv, hn⟩
    · simp only [insertVersion, if_neg h]
      refine List.nodup_cons.mpr ⟨?_, ih hws (fun hm => hv (List.mem_cons_of_mem w hm))⟩
      rw [mem_insertVersion]
      rintro (rfl | hm)
      · exact hv (List.mem_cons_self w ws)
      · exact hw hm

theorem nodup_sortVersions {l : List String} (hn : l.Nodup) :
    (sortVersions l).Nodup := by
  induction l with
  | nil => simp [sortVersions]
  | cons v vs ih =>
    rcases List.nodup_cons.mp hn with ⟨hv, hvs⟩
    exact nodup_insertVersion (ih hvs) (fun hm => hv (mem_sortVersions.mp hm))

theorem sorted_insertVersion {v : String} {l : List String}
    (hval : AllValid (v :: l)) (hs : VersionSorted l) :
    VersionSorted (insertVersion v l) := by
  induction l with
  | nil => simp [insertVersion, VersionSorted]
  | cons w ws ih =>
    have hvv : (parseVersion v).isSome := hval v (List.mem_cons_self v _)
    have hvw : (parseVersion w).isSome := hval w (by simp)
    rcases Option.isSome_iff_exists.mp hvv with ⟨pv, hpv⟩
    rcases Option.isSome_iff_exists.mp hvw with ⟨pw, hpw⟩
    rcases List.pairwise_cons.mp hs with ⟨hw, hws⟩
    by_cases h : versionLe v w = true
    · simp only [insertVersion, if_pos h]
      refine List.pairwise_cons.mpr ⟨?_, hs⟩
      intro x hx
      rcases List.mem_cons.mp hx with rfl | hx
      · exact h
      · have hvx : (parseVersion x).isSome :=
          hval x (List.mem_cons_of_mem v (List.mem_cons_of_mem w hx))
        rcases Option.isSome_iff_exists.mp hvx with ⟨px, hpx⟩
        exact versionLe_trans hpv hpw hpx h (hw x hx)
    · simp only [insertVersion, if_neg h]
      have hwv : versionLe w v = true := by
        rcases versionLe_total hpv hpw with h1 | h2
        · exact absurd h1 h
        · exact h2
      refine List.pairwise_cons.mpr ⟨?_, ?_⟩
      · intro x hx
        rcases mem_insertVersion.mp hx with rfl | hx
        · exact hwv
        · exact hw x hx
      · refine ih ?_ hws
        intro x hx
        rcases List.mem_cons.mp hx with rfl | hx
        · exact hvv
        · exact hval x (List.mem_cons_of_mem v (List.mem_cons_of_mem w hx))

theorem sorted_sortVersions {l : List String} (hval : AllValid l) :
    VersionSorted (sortVersions l) := by
  induction l with
  | nil => simp [sortVersions, VersionSorted]
  | cons v vs ih =>
    have hvs : AllValid vs := fun x hx => hval x (List.mem_cons_of_mem v hx)
    refine sorted_insertVersion ?_ (ih hvs)
    intro x hx
    rcases List.mem_cons.mp hx with rfl | hx
    · exact hval x (List.mem_cons_self x vs)
    · exact hvs x (mem_sortVersions.mp hx)

theorem le_getLast_of_sorted {l : List String} (hval : AllValid l)
    (hs : VersionSorted l) (hne : l ≠ []) :
    ∀ x ∈ l, versionLe x (l.getLast hne) = true := by
  induction l with
  | nil => exact absurd rfl hne
  | cons v vs ih =>
    intro x hx
    cases vs with
    | nil =>
      rcases List.mem_cons.mp hx with rfl | hx
      · rcases Option.isSome_iff_exists.mp (hval x (List.mem_cons_self x [])) with ⟨px, hpx⟩
        simpa [List.getLast] using versionLe_refl hpx
      · simp at hx
    | cons w ws =>
      rw [List.getLast_cons (by simp)]
      rcases List.mem_cons.mp hx with rfl | hx
      · have hlast : (w :: ws).getLast (by simp) ∈ w :: ws := List.getLast_mem (by simp)
        exact (List.pairwise_cons.mp hs).1 _ hlast
      · exact ih (fun y hy => hval y (List.mem_cons_of_mem v hy))
          (List.pairwise_cons.mp hs).2 (by simp) x hx

theorem mem_installedVersions {store : ToolchainStore}
    {organization project v : String} :
    v ∈ store.installedVersions organization project ↔
      (organization, project, v) ∈ store.entries := by
  unfold ToolchainStore.installedVersions
  rw [List.mem_map]
  constructor
  · rintro ⟨e, he, rfl⟩
    rcases List.mem_filter.mp he with ⟨hmem, hcond⟩
    rcases Bool.and_eq_true_iff.mp hcond with ⟨h1, h2⟩
    have h1' : e.1 = organization := by simpa using h1
    have h2' : e.2.1 = project := by simpa using h2
    have : e = (organization, project, e.2.2) := by
      cases e with
      | mk a bc =>
        cases bc with
        | mk b c => simp_all
    rwa [← this]
  · intro hmem
    refine ⟨(organization, project, v), List.mem_filter.mpr ⟨hmem, by simp⟩, rfl⟩

theorem nodup_installedVersions (store : ToolchainStore)
    (organization project : String) :
    (store.installedVersions organization project).Nodup := by
  unfold ToolchainStore.installedVersions
  refine List.Nodup.map_on ?_ (List.Nodup.filter _ store.nodup)
  intro x hx y hy hxy
  rcases List.mem_filter.mp hx with ⟨_, hcx⟩
  rcases List.mem_filter.mp hy with ⟨_, hcy⟩
  rcases Bool.and_eq_true_iff.mp hcx with ⟨hx1, hx2⟩
  rcases Bool.and_eq_true_iff.mp hcy with ⟨hy1, hy2⟩
  have hx1' : x.1 = organization := by simpa using hx1
  have hx2' : x.2.1 = project := by simpa using hx2
  have hy1' : y.1 = organization := by simpa using hy1
  have hy2' : y.2.1 = project := by simpa using hy2
  cases x with
  | mk xa xbc =>
    cases xbc with
    | mk xb xc =>
      cases y with
      | mk ya ybc =>
        cases ybc with
        | mk yb yc => simp_all

theorem getVersions_ok {store : ToolchainStore} {organization project : String}
    {vs : List String}
    (h : Toolchain.GetVersions store organization project = Except.ok vs) :
    vs = sortVersions (store.installedVersions organization project) ∧
    AllValid (store.installedVersions organization project) := by
  unfold Toolchain.GetVersions at h
  split at h
  · exact absurd h (by simp)
  · refine ⟨by injection h with h; exact h.symm, ?_⟩
    intro x hx
    have := List.find?_eq_none.mp (by assumption) x hx
    simpa [Option.isNone_iff_eq_none, Option.isSome_iff_ne_none] using this

theorem allValid_sortVersions {l : List String} (h : AllValid l) :
    AllValid (sortVersions l) :=
  fun x hx => h x (mem_sortVersions.mp hx)

theorem mem_getVersions {store : ToolchainStore} {organization project : String}
    {vs : List String}
    (h : Toolchain.GetVersions store organization project = Except.ok vs) :
    ∀ v, v ∈ vs ↔ (organization, project, v) ∈ store.entries := by
  intro v
  rw [(getVersions_ok h).1, mem_sortVersions, mem_installedVersions]

/-- C1: over valid dot-separated numeric version strings the version
comparison is a total order: for every pair of valid version strings
exactly one of `a < b`, `a == b`, `b < a` holds; comparison is
component-wise numeric so that `"1.9" < "1.10" < "1.10.1"`, and missing
trailing components compare as zero so that `"1.2" == "1.2.0"`. -/
theorem version_ordering_total_order :
    (∀ a b : String, (parseVersion a).isSome → (parseVersion b).isSome →
      (versionCompare a b = some Ordering.lt ∧
        versionCompare a b ≠ some Ordering.eq ∧
        versionCompare b a ≠ some Ordering.lt) ∨
      (versionCompare a b ≠ some Ordering.lt ∧
        versionCompare a b = some Ordering.eq ∧
        versionCompare b a ≠ some Ordering.lt) ∨
      (versionCompare a b ≠ some Ordering.lt ∧
        versionCompare a b ≠ some Ordering.eq ∧
        versionCompare b a = some Ordering.lt)) ∧
    versionCompare "1.9" "1.10" = some Ordering.lt ∧
    versionCompare "1.10" "1.10.1" = some Ordering.lt ∧
    versionCompare "1.2" "1.2.0" = some Ordering.eq := by
  refine ⟨?_, by decide, by decide, by decide⟩
  intro a b ha hb
  rcases Option.isSome_iff_exists.mp ha with ⟨va, hva⟩
  rcases Option.isSome_iff_exists.mp hb with ⟨vb, hvb⟩
  have hab : versionCompare a b = some (cmpComponents va vb) := by
    unfold versionCompare
    rw [hva, hvb]
  have hba : versionCompare b a = some ((cmpComponents va vb).swap) := by
    unfold versionCompare
    rw [hvb, hva]
    exact congrArg some (cmpComponents_swap va vb)
  rcases hc : cmpComponents va vb
  · exact Or.inl ⟨by rw [hab, hc], by rw [hab, hc]; simp,
      by rw [hba, hc]; simp [Ordering.swap]⟩
  · exact Or.inr (Or.inl ⟨by rw [hab, hc]; simp, by rw [hab, hc],
      by rw [hba, hc]; simp [Ordering.swap]⟩)
  · exact Or.inr (Or.inr ⟨by rw [hab, hc]; simp, by rw [hab, hc]; simp,
      by rw [hba, hc]; simp [Ordering.swap]⟩)

theorem version_ordering_total_order_witness :
    (parseVersion "1.9").isSome ∧
    ((versionCompare "1.9" "1.10" = some Ordering.lt ∧
      versionCompare "1.9" "1.10" ≠ some Ordering.eq ∧
      versionCompare "1.10" "1.9" ≠ some Ordering.lt) ∨
    (versionCompare "1.9" "1.10" ≠ some Ordering.lt ∧
      versionCompare "1.9" "1.10" = some Ordering.eq ∧
      versionCompare "1.10" "1.9" ≠ some Ordering.lt) ∨
    (versionCompare "1.9" "1.10" ≠ some Ordering.lt ∧
      versionCompare "1.9" "1.10" ≠ some Ordering.eq ∧
      versionCompare "1.10" "1.9" = some Ordering.lt)) :=
  ⟨by decide, version_ordering_total_order.1 "1.9" "1.10" (by decide) (by decide)⟩

/-- C2: `GetVersions` returns exactly the set of installed versions for
(organization, project), sorted ascending by the version ordering, with no
duplicates; an entirely absent organization/project yields the empty
sequence, not an error. -/
theorem getVersions_spec :
    (∀ (store : ToolchainStore) (organization project : String)
      (vs : List String),
      Toolchain.GetVersions store organization project = Except.ok vs →
      VersionSorted vs ∧ vs.Nodup ∧
      (∀ v, v ∈ vs ↔ (organization, project, v) ∈ store.entries)) ∧
    (∀ (store : ToolchainStore) (organization project : String),
      (∀ v, (organization, project, v) ∉ store.entries) →
      Toolchain.GetVersions store organization project = Except.ok []) := by
  constructor
  · intro store organization project vs h
    rcases getVersions_ok h with ⟨hvs, hval⟩
    subst hvs
    exact ⟨sorted_sortVersions hval,
      nodup_sortVersions (nodup_installedVersions store organization project),
      mem_getVersions h⟩
  · intro store organization project habs
    have hempty : store.installedVersions organization project = [] := by
      rw [List.eq_nil_iff_forall_not_mem]
      intro v hv
      exact habs v (mem_installedVersions.mp hv)
    unfold Toolchain.GetVersions
    rw [hempty]
    rfl

theorem getVersions_spec_witness :
    (VersionSorted ["1.2.0", "1.3.0"] ∧ ["1.2.0", "1.3.0"].Nodup ∧
      (∀ v, v ∈ ["1.2.0", "1.3.0"] ↔
        ("acme", "zlib", v) ∈ sampleStore.entries)) ∧
    Toolchain.GetVersions sampleStore "other" "project" = Except.ok [] :=
  ⟨getVersions_spec.1 sampleStore "acme" "zlib" ["1.2.0", "1.3.0"] (by decide),
   getVersions_spec.2 sampleStore "other" "project"
     (by intro v; simp [sampleStore])⟩

/-- C3: `GetLatestVersion` returns the maximum element of `GetVersions`
(the last element of the ascending-sorted sequence); when `GetVersions` is
empty it fails with a toolchain-not-found error instead of returning a
value; and when two distinct directory entries normalize to equal versions
(the corruption condition of spec 4.2) it fails loudly rather than pick
one. -/
theorem getLatestVersion_spec :
    ∀ (store : ToolchainStore) (organization project : String)
      (vs : List String),
      Toolchain.GetVersions store organization project = Except.ok vs →
      (vs = [] → Toolchain.GetLatestVersion store organization project =
        Except.error (CoreError.toolchainNotFound organization project)) ∧
      (Toolchain.hasVersionTie vs = true →
        Toolchain.GetLatestVersion store organization project =
          Except.error CoreError.toolchainStoreUnreadable) ∧
      (Toolchain.hasVersionTie vs = false → ∀ hne : vs ≠ [],
        Toolchain.GetLatestVersion store organization project =
          Except.ok (vs.getLast hne) ∧
        ∀ v ∈ vs, versionLe v (vs.getLast hne) = true) := by
  intro store organization project vs h
  refine ⟨?_, ?_, ?_⟩
  · intro hnil
    subst hnil
    unfold Toolchain.GetLatestVersion
    rw [h]
    rfl
  · intro htie
    unfold Toolchain.GetLatestVersion
    rw [h]
    simp [htie]
  · intro htie hne
    rcases getVersions_ok h with ⟨hvs, hval⟩
    have hsorted : VersionSorted vs := by
      rw [hvs]
      exact sorted_sortVersions hval
    have hvalvs : AllValid vs := by
      rw [hvs]
      exact allValid_sortVersions hval
    refine ⟨?_, le_getLast_of_sorted hvalvs hsorted hne⟩
    unfold Toolchain.GetLatestVersion
    rw [h]
    cases vs with
    | nil => exact absurd rfl hne
    | cons v vs =>
      show (if Toolchain.hasVersionTie (v :: vs) then
          Except.error CoreError.toolchainStoreUnreadable
        else Except.ok ((v :: vs).getLast (by simp))) =
        Except.ok ((v :: vs).getLast hne)
      rw [if_neg (by simp [htie])]

theorem getLatestVersion_spec_witness :
    (Toolchain.GetLatestVersion sampleStore "acme" "zlib" =
        Except.ok (["1.2.0", "1.3.0"].getLast (by decide)) ∧
      ∀ v ∈ ["1.2.0", "1.3.0"],
        versionLe v (["1.2.0", "1.3.0"].getLast (by decide)) = true) ∧
    Toolchain.GetLatestVersion tieStore "acme" "zlib" =
      Except.error CoreError.toolchainStoreUnreadable :=
  ⟨(getLatestVersion_spec sampleStore "acme" "zlib" ["1.2.0", "1.3.0"]
      (by decide)).2.2 (by decide) (by decide),
   (getLatestVersion_spec tieStore "acme" "zlib" ["1.2", "1.2.0"]
      (by decide)).2.1 (by decide)⟩

/-- C4: `IsInstalled organization project v` is true exactly when `v`
appears in the sequence returned by `GetVersions organization project`. -/
theorem isInstalled_spec :
    ∀ (store : ToolchainStore) (organization project version : String)
      (vs : List String),
      Toolchain.GetVersions store organization project = Except.ok vs →
      (Toolchain.IsInstalled store organization project version = true ↔
        version ∈ vs) := by
  intro store organization project version vs h
  unfold Toolchain.IsInstalled
  rw [mem_getVersions h version]
  simp [List.elem_iff]

theorem isInstalled_spec_witness :
    (Toolchain.IsInstalled sampleStore "acme" "zlib" "1.2.0" = true ↔
      "1.2.0" ∈ ["1.2.0", "1.3.0"]) ∧
    (Toolchain.IsInstalled sampleStore "acme" "zlib" "1.4.0" = true ↔
      "1.4.0" ∈ ["1.2.0", "1.3.0"]) :=
  ⟨isInstalled_spec sampleStore "acme" "zlib" "1.2.0" ["1.2.0", "1.3.0"]
      (by decide),
   isInstalled_spec sampleStore "acme" "zlib" "1.4.0" ["1.2.0", "1.3.0"]
      (by decide)⟩

theorem find_eq_none_iff {m : Generator.Map} {type : String} :
    Generator.find m type = none ↔ type ∉ m.map Prod.fst := by
  induction m with
  | nil => simp [Generator.find]
  | cons e rest ih =>
    rcases e with ⟨t, f⟩
    by_cases h : type = t
    · subst h
      simp [Generator.find]
    · simp [Generator.find, h, ih]

theorem find_some_mem {m : Generator.Map} {type : String}
    {f : Generator.Factory} (h : Generator.find m type = some f) :
    (type, f) ∈ m := by
  induction m with
  | nil => simp [Generator.find] at h
  | cons e rest ih =>
    rcases e with ⟨t, g⟩
    by_cases ht : type = t
    · subst ht
      simp [Generator.find] at h
      subst h
      exact List.mem_cons_self _ _
    · simp only [Generator.find, if_neg ht] at h
      exact List.mem_cons_of_mem _ (ih h)

theorem mem_mapInsert_elim {p : String × Generator.Factory} {type : String}
    {factory : Generator.Factory} {m : Generator.Map}
    (h : p ∈ Generator.mapInsert type factory m) :
    p = (type, factory) ∨ p ∈ m := by
  induction m with
  | nil => simpa [Generator.mapInsert] using h
  | cons e rest ih =>
    rcases e with ⟨t, f⟩
    by_cases h1 : type < t
    · simp only [Generator.mapInsert, if_pos h1] at h
      rcases List.mem_cons.mp h with rfl | h
      · exact Or.inl rfl
      · exact Or.inr h
    · by_cases h2 : type = t
      · simp only [Generator.mapInsert, if_neg h1, if_pos h2] at h
        exact Or.inr h
      · simp only [Generator.mapInsert, if_neg h1, if_neg h2] at h
        rcases List.mem_cons.mp h with rfl | h
        · exact Or.inr (List.mem_cons_self _ _)
        · rcases ih h with h | h
          · exact Or.inl h
          · exact Or.inr (List.mem_cons_of_mem _ h)

theorem mem_buildMap_elim {p : String × Generator.Factory}
    {regs : List (String × Generator.Factory)}
    (h : p ∈ Generator.buildMap regs) : p ∈ regs := by
  suffices h' : ∀ (acc : Generator.Map),
      p ∈ regs.foldl (fun m r => Generator.mapInsert r.1 r.2 m) acc →
        p ∈ acc ∨ p ∈ regs by
    rcases h' [] h with h | h
    · simp at h
    · exact h
  clear h
  induction regs with
  | nil =>
    intro acc h
    exact Or.inl h
  | cons r rest ih =>
    intro acc h
    rcases ih (Generator.mapInsert r.1 r.2 acc) h with h | h
    · rcases mem_mapInsert_elim h with h | h
      · right
        rcases r with ⟨t, f⟩
        exact h ▸ List.mem_cons_self _ _
      · exact Or.inl h
    · exact Or.inr (List.mem_cons_of_mem _ h)

theorem keys_mapInsert {x type : String} {factory : Generator.Factory}
    {m : Generator.Map} :
    x ∈ (Generator.mapInsert type factory m).map Prod.fst ↔
      x = type ∨ x ∈ m.map Prod.fst := by
  induction m with
  | nil => simp [Generator.mapInsert]
  | cons e rest ih =>
    rcases e with ⟨t, f⟩
    simp only [Generator.mapInsert]
    by_cases h1 : type < t
    · rw [if_pos h1]
      simp only [List.map_cons, List.mem_cons]
    · rw [if_neg h1]
      by_cases h2 : type = t
      · rw [if_pos h2]
        subst h2
        simp only [List.map_cons, List.mem_cons]
        tauto
      · rw [if_neg h2]
        simp only [List.map_cons, List.mem_cons, ih]
        tauto

theorem keys_buildMap {x : String} {regs : List (String × Generator.Factory)} :
    x ∈ (Generator.buildMap regs).map Prod.fst ↔ x ∈ regs.map Prod.fst := by
  suffices h : ∀ acc : Generator.Map,
      (x ∈ (regs.foldl (fun m r => Generator.mapInsert r.1 r.2 m) acc).map
          Prod.fst ↔
        x ∈ acc.map Prod.fst ∨ x ∈ regs.map Prod.fst) by
    simpa [Generator.buildMap] using h []
  induction regs with
  | nil =>
    intro acc
    simp
  | cons r rest ih =>
    intro acc
    rw [List.foldl_cons, ih (Generator.mapInsert r.1 r.2 acc)]
    simp only [keys_mapInsert, List.map_cons, List.mem_cons]
    tauto

theorem sorted_mapInsert {type : String} {factory : Generator.Factory}
    {m : Generator.Map}
    (h : (m.map Prod.fst).Pairwise (fun a b : String => a < b)) :
    ((Generator.mapInsert type factory m).map Prod.fst).Pairwise
      (fun a b : String => a < b) := by
  induction m with
  | nil => simp [Generator.mapInsert]
  | cons e rest ih =>
    rcases e with ⟨t, f⟩
    simp only [List.map_cons] at h
    rcases List.pairwise_cons.mp h with ⟨ht, hrest⟩
    simp only [Generator.mapInsert]
    by_cases h1 : type < t
    · rw [if_pos h1]
      simp only [List.map_cons]
      refine List.pairwise_cons.mpr ⟨?_, h⟩
      intro b hb
      rcases List.mem_cons.mp hb with rfl | hb
      · exact h1
      · exact lt_trans h1 (ht b hb)
    · rw [if_neg h1]
      by_cases h2 : type = t
      · rw [if_pos h2]
        simp only [List.map_cons]
        exact List.pairwise_cons.mpr ⟨ht, hrest⟩
      · rw [if_neg h2]
        have h3 : t < type := by
          rcases lt_trichotomy type t with hlt | heq | hgt
          · exact absurd hlt h1
          · exact absurd heq h2
          · exact hgt
        simp only [List.map_cons]
        refine List.pairwise_cons.mpr ⟨?_, ih hrest⟩
        intro b hb
        rcases keys_mapInsert.mp hb with rfl | hb
        · exact h3
        · exact ht b hb

theorem sorted_buildMap {regs : List (String × Generator.Factory)} :
    ((Generator.buildMap regs).map Prod.fst).Pairwise
      (fun a b : String => a < b) := by
  suffices h : ∀ acc : Generator.Map,
      (acc.map Prod.fst).Pairwise (fun a b : String => a < b) →
      ((regs.foldl (fun m r => Generator.mapInsert r.1 r.2 m) acc).map
        Prod.fst).Pairwise (fun a b : String => a < b) by
    simpa [Generator.buildMap] using h [] (by simp)
  induction regs with
  | nil =>
    intro acc hacc
    simpa using hacc
  | cons r rest ih =>
    intro acc hacc
    rw [List.foldl_cons]
    exact ih _ (sorted_mapInsert hacc)

/-- C5: requesting a generator instance for a type name with no registered
factory fails with a generator-type-not-found error and returns no usable
instance. -/
theorem generator_get_unregistered :
    ∀ (regs : List (String × Generator.Factory)) (type : String)
      (rootProject : Bool),
      type ∉ regs.map Prod.fst →
      Generator.Get (Generator.buildMap regs) type rootProject =
        Except.error (CoreError.generatorTypeNotFound type) := by
  intro regs type rootProject h
  have hfind : Generator.find (Generator.buildMap regs) type = none :=
    find_eq_none_iff.mpr (fun hm => h (keys_buildMap.mp hm))
  unfold Generator.Get
  rw [hfind]

theorem generator_get_unregistered_witness :
    Generator.Get (Generator.buildMap [declareGenerator "make"]) "vs2010"
      true = Except.error (CoreError.generatorTypeNotFound "vs2010") :=
  generator_get_unregistered [declareGenerator "make"] "vs2010" true
    (by decide)

/-- C9: for every concrete generator registered through the
dynamic-discovery macros, `GetName` returns exactly the type name under
which its factory was registered in the registry map (and `GetName` is a
pure observation of the instance). -/
theorem generator_getName_registered :
    ∀ (types : List String) (type : String) (rootProject : Bool)
      (g : GeneratorInst),
      Generator.Get (Generator.buildMap (types.map declareGenerator)) type
        rootProject = Except.ok g →
      g.GetName = type := by
  intro types type rootProject g h
  unfold Generator.Get at h
  rcases hf : Generator.find (Generator.buildMap (types.map declareGenerator))
      type with _ | f
  · rw [hf] at h
    exact absurd h (by simp)
  · rw [hf] at h
    have hmem : (type, f) ∈ types.map declareGenerator :=
      mem_buildMap_elim (find_some_mem hf)
    rcases List.mem_map.mp hmem with ⟨t, ht, heq⟩
    have ht1 : t = type := congrArg Prod.fst heq
    have hf1 : (fun rootProject =>
        { name := t, rootProject := rootProject : GeneratorInst }) = f :=
      congrArg Prod.snd heq
    injection h with h
    rw [← h, ← hf1]
    simpa [GeneratorInst.GetName] using ht1

theorem generator_getName_registered_witness :
    GeneratorInst.GetName { name := "vs2010", rootProject := true } =
      "vs2010" :=
  generator_getName_registered ["vs2010"] "vs2010" true
    { name := "vs2010", rootProject := true } (by decide)

/-- C10: because the registry is a `std::map` keyed by the type-name
string, `GetGenerators` returns the registered type names in ascending
lexicographic order with no duplicates, independently of the order in
which the registrations ran. -/
theorem getGenerators_ordered :
    ∀ regs : List (String × Generator.Factory),
      (Generator.GetGenerators (Generator.buildMap regs)).Pairwise
        (fun a b : String => a < b) ∧
      (Generator.GetGenerators (Generator.buildMap regs)).Nodup ∧
      ∀ regs' : List (String × Generator.Factory), regs.Perm regs' →
        Generator.GetGenerators (Generator.buildMap regs) =
          Generator.GetGenerators (Generator.buildMap regs') := by
  intro regs
  have hs1 : (Generator.GetGenerators (Generator.buildMap regs)).Pairwise
      (fun a b : String => a < b) := sorted_buildMap
  have hnd1 : (Generator.GetGenerators (Generator.buildMap regs)).Nodup :=
    List.Pairwise.imp (fun h => ne_of_lt h) hs1
  refine ⟨hs1, hnd1, ?_⟩
  intro regs' hperm
  have hs2 : (Generator.GetGenerators (Generator.buildMap regs')).Pairwise
      (fun a b : String => a < b) := sorted_buildMap
  have hnd2 : (Generator.GetGenerators (Generator.buildMap regs')).Nodup :=
    List.Pairwise.imp (fun h => ne_of_lt h) hs2
  haveI : IsAntisymm String (fun a b : String => a < b) :=
    ⟨fun a b h1 h2 => absurd h1 (lt_asymm h2)⟩
  refine List.eq_of_perm_of_sorted ?_ hs1 hs2
  refine (List.perm_ext_iff_of_nodup hnd1 hnd2).mpr ?_
  intro a
  show a ∈ (Generator.buildMap regs).map Prod.fst ↔
    a ∈ (Generator.buildMap regs').map Prod.fst
  rw [keys_buildMap, keys_buildMap]
  exact (hperm.map Prod.fst).mem_iff

theorem getGenerators_ordered_witness :
    Generator.GetGenerators (Generator.buildMap
      [declareGenerator "vs2010", declareGenerator "make"]) =
    Generator.GetGenerators (Generator.buildMap
      [declareGenerator "make", declareGenerator "vs2010"]) :=
  (getGenerators_ordered
      [declareGenerator "vs2010", declareGenerator "make"]).2.2
    [declareGenerator "make", declareGenerator "vs2010"]
    (List.Perm.swap _ _ _)

/-- C6: with `force = false`, if `Generate` returns `true` then an
immediately following `Generate` with identical arguments and no
intervening filesystem change returns `false` (the output is up to date
and the state is untouched); being a function of the state, the result is
deterministic for identical inputs and filesystem state. -/
theorem generate_round_trip :
    ∀ (s s' : ProjectState) (generateDependencies : Bool),
      Generator.Generate s generateDependencies false = (Except.ok true, s') →
      Generator.Generate s' generateDependencies false =
        (Except.ok false, s') := by
  intro s s' gd h
  unfold Generator.Generate at h ⊢
  cases hc : Generator.generateCheck s gd with
  | some e =>
    rw [hc] at h
    simp at h
  | none =>
    rw [hc] at h
    cases hu : Generator.upToDate s with
    | true =>
      rw [hu] at h
      simp at h
    | false =>
      rw [hu] at h
      simp only [Bool.not_false, Bool.or_true, if_pos] at h
      have hs' : s' = Generator.writeOutput s := by
        have := congrArg Prod.snd h
        simpa using this.symm
      subst hs'
      have hc2 : Generator.generateCheck (Generator.writeOutput s) gd =
          Generator.generateCheck s gd := rfl
      rw [hc2, hc]
      have hu2 : Generator.upToDate (Generator.writeOutput s) = true := by
        simp [Generator.upToDate, Generator.writeOutput]
      rw [hu2]
      simp

theorem generate_round_trip_witness :
    Generator.Generate
      { hasProjectFile := true, projectModTime := 5,
        missingDependency := none, output := some 5 } false false =
    (Except.ok false,
      { hasProjectFile := true, projectModTime := 5,
        missingDependency := none, output := some 5 }) :=
  generate_round_trip
    { hasProjectFile := true, projectModTime := 5,
      missingDependency := none, output := none }
    { hasProjectFile := true, projectModTime := 5,
      missingDependency := none, output := some 5 } false (by decide)

/-- C7: every failing `Generate` invocation — malformed project
description when the project root lacks the expected project file, or
missing dependency when a required toolchain cannot be resolved — commits
no partial output: the observable on-disk state after the call is exactly
the state before it. -/
theorem generate_no_partial_output :
    ∀ (s s' : ProjectState) (generateDependencies force : Bool)
      (e : CoreError),
      Generator.Generate s generateDependencies force =
        (Except.error e, s') →
      s' = s ∧ (e = CoreError.malformedProjectDescription ∨
        ∃ organization project,
          e = CoreError.missingDependency organization project) := by
  intro s s' gd force e h
  unfold Generator.Generate at h
  cases hc : Generator.generateCheck s gd with
  | none =>
    rw [hc] at h
    by_cases hup : (force || !Generator.upToDate s) = true
    · rw [if_pos hup] at h
      simp at h
    · rw [if_neg hup] at h
      simp at h
  | some e0 =>
    rw [hc] at h
    have he : e0 = e := by
      have := congrArg Prod.fst h
      simpa using this
    have hs : s' = s := by
      have := congrArg Prod.snd h
      simpa using this.symm
    subst he
    refine ⟨hs, ?_⟩
    unfold Generator.generateCheck at hc
    by_cases hpf : s.hasProjectFile = false
    · rw [if_pos hpf] at hc
      injection hc with hc
      exact Or.inl hc.symm
    · rw [if_neg hpf] at hc
      cases gd with
      | false => simp at hc
      | true =>
        simp only [if_pos] at hc
        cases hmd : s.missingDependency with
        | none =>
          rw [hmd] at hc
          simp at hc
        | some p =>
          rcases p with ⟨o, pr⟩
          rw [hmd] at hc
          injection hc with hc
          exact Or.inr ⟨o, pr, hc.symm⟩

theorem generate_no_partial_output_witness :
    ({ hasProjectFile := true, projectModTime := 0,
        missingDependency := some ("acme", "zlib"),
        output := none } : ProjectState) =
      { hasProjectFile := true, projectModTime := 0,
        missingDependency := some ("acme", "zlib"), output := none } ∧
    (CoreError.missingDependency "acme" "zlib" =
        CoreError.malformedProjectDescription ∨
      ∃ organization project,
        CoreError.missingDependency "acme" "zlib" =
          CoreError.missingDependency organization project) :=
  generate_no_partial_output
    { hasProjectFile := true, projectModTime := 0,
      missingDependency := some ("acme", "zlib"), output := none }
    { hasProjectFile := true, projectModTime := 0,
      missingDependency := some ("acme", "zlib"), output := none }
    true false (CoreError.missingDependency "acme" "zlib") (by decide)

/-- C8: `Delete` is idempotent: deleting output that does not exist is
not an error and leaves the state unchanged, and two consecutive `Delete`
calls produce no error and identical on-disk state after either call. -/
theorem delete_idempotent :
    ∀ (s : ProjectState) (deleteDependencies : Bool),
      (Generator.Delete s deleteDependencies).1 = Except.ok () ∧
      Generator.Delete (Generator.Delete s deleteDependencies).2
          deleteDependencies =
        Generator.Delete s deleteDependencies ∧
      (s.output = none → (Generator.Delete s deleteDependencies).2 = s) := by
  intro s dd
  refine ⟨rfl, rfl, ?_⟩
  intro h
  cases s with
  | mk hpf mt md out =>
    simp only [Generator.Delete]
    simp_all

theorem delete_idempotent_witness :
    (Generator.Delete
      { hasProjectFile := true, projectModTime := 3,
        missingDependency := none, output := none } false).2 =
    { hasProjectFile := true, projectModTime := 3,
      missingDependency := none, output := none } :=
  (delete_idempotent
    { hasProjectFile := true, projectModTime := 3,
      missingDependency := none, output := none } false).2.2 rfl

end ThekogansMakeCore
